import Mathlib

/-!
Verification of the approximate movie-search subsystem of the `movie_db`
repository (files `movie_project.py` and `run.py`).

Strings are modelled as `List Char`.  Python `str.lower` is modelled by
mapping `Char.toLower` (faithful on the ASCII range, which is all the
source ever handles).  Machine floats appearing in the source
(`0.7`, `len * 0.7`, division) are modelled by exact rational arithmetic:
`int(len(q) * 0.7)` is `(7 * len q) / 10` in `ℕ` (the truncation of the
exact product) and normalized distances live in `ℚ`.
-/

namespace MovieDb

/-- Python strings. -/
abbrev Str := List Char

/-- Model of Python `str.lower()` (ASCII case folding). -/
def pyLower (s : Str) : Str := s.map Char.toLower

/-- Modelled from the spec: the reference Levenshtein recursion of §4.2 —
`distance(a, b) = len(b)` if `a` is empty; `len(a)` if `b` is empty;
`distance(a[1:], b[1:])` if `a[0] == b[0]`; otherwise
`1 + min(distance(a[1:], b), distance(a, b[1:]), distance(a[1:], b[1:]))`.
This is the pure (memo-free) recursion the memoized source function is
compared against. -/
def levSpec : Str → Str → Nat
  | [], s2 => s2.length
  | s1, [] => s1.length
  | a :: t1, b :: t2 =>
    if a = b then levSpec t1 t2
    else 1 + min (levSpec t1 (b :: t2)) (min (levSpec (a :: t1) t2) (levSpec t1 t2))
termination_by s1 s2 => s1.length + s2.length
decreasing_by all_goals simp [List.length_cons] <;> omega

/-- Memo table of `calculate_distance`: the Python dict keyed by the pair
of remaining suffixes (most recent binding first, as lookup order). -/
abbrev Memo := List ((Str × Str) × Nat)

/-- Lookup in the memo dict. -/
def memoLookup : Memo → Str × Str → Option Nat
  | [], _ => none
  | (k, v) :: rest, p => if k = p then some v else memoLookup rest p

/-- Embedding of `calculate_distance(string1, string2, memo)` from
`movie_project.py` lines 163–183 (identical copy in `run.py` 139–159):
check the memo first, then the two emptiness base cases (which do not
memoize), then the equal-head case, else `1 + min(delete, insert, replace)`,
storing each computed value under the suffix-pair key.  Returns the value
together with the updated memo. -/
def calculate_distance (s1 s2 : Str) (memo : Memo) : Nat × Memo :=
  match memoLookup memo (s1, s2), s1, s2 with
  | some v, _, _ => (v, memo)
  | none, [], s2 => (s2.length, memo)
  | none, s1, [] => (s1.length, memo)
  | none, a :: t1, b :: t2 =>
    if a = b then
      let r := calculate_distance t1 t2 memo
      (r.1, ((a :: t1, b :: t2), r.1) :: r.2)
    else
      let d := calculate_distance t1 (b :: t2) memo
      let i := calculate_distance (a :: t1) t2 d.2
      let r := calculate_distance t1 t2 i.2
      (1 + min d.1 (min i.1 r.1), ((a :: t1, b :: t2), 1 + min d.1 (min i.1 r.1)) :: r.2)
termination_by s1.length + s2.length
decreasing_by all_goals simp [List.length_cons] <;> omega

/-- A memo is valid when every stored value is the true spec distance of
its key pair. -/
def ValidMemo (memo : Memo) : Prop :=
  ∀ e ∈ memo, e.2 = levSpec e.1.1 e.1.2

/-- Embedding of `count_matches(string1, string2)` from `movie_project.py`
lines 186–194 (identical copy in `run.py` lines 162–170).
`int(len(string1) * 0.7)` is the truncation of the exact product, i.e.
`(7 * len) / 10` in `ℕ` (the value is nonnegative, so truncation is floor).
`sum((Counter(string1) & Counter(string2)).values())` is the sum, over the
distinct characters of `string1`, of the smaller of the two occurrence
counts (characters absent from `string2` contribute `0`). -/
def count_matches (s1 s2 : Str) : Bool :=
  let min_matches := (7 * s1.length) / 10
  let numMatches := (s1.dedup.map (fun c => min (s1.count c) (s2.count c))).sum
  decide (numMatches ≥ min_matches)

/-- Ratings are carried opaquely through the search code; the spec
normalizes them to one numeric type, modelled as `ℚ`. -/
abbrev Rating := ℚ

/-- Result of the search orchestration (spec §6): exact hits carry no
similarity information, fuzzy hits carry the normalized distance that the
code stores alongside each `(title, rating)` pair. -/
inductive SearchResult where
  | ExactMatches : List (Str × Rating) → SearchResult
  | FuzzyMatches : List (Str × Rating × ℚ) → SearchResult
  | NoMatch : SearchResult
deriving DecidableEq

/-- The substring pass of `search_movie` (`movie_project.py` line 202):
catalog entries whose lowercased title contains the (already lowercased)
query as a contiguous substring. -/
def exactResults (uq : Str) (movies : List (Str × Rating)) : List (Str × Rating) :=
  movies.filter (fun m => decide (uq <:+: pyLower m.1))

/-- Normalized edit distance of the ranker (`movie_project.py`
lines 212–214): the memoized distance (fresh memo per call) divided by the
longer length, in exact rational arithmetic. -/
def normDist (q t : Str) : ℚ :=
  ((calculate_distance q t []).1 : ℚ) / ((max q.length t.length : ℕ) : ℚ)

/-- The fuzzy scan of `search_movie` (`movie_project.py` lines 209–217):
candidates passing the pre-filter whose normalized distance is at most
`0.7`, in catalog order, each carrying its normalized distance. -/
def similarMatches (uq : Str) (movies : List (Str × Rating)) : List (Str × Rating × ℚ) :=
  movies.filterMap (fun m =>
    if count_matches uq (pyLower m.1) then
      if normDist uq (pyLower m.1) ≤ 0.7 then some (m.1, m.2, normDist uq (pyLower m.1))
      else none
    else none)

/-- The ranked fuzzy list (`movie_project.py` line 220): the accepted
candidates sorted by ascending normalized distance.  Python
`list.sort(key=...)` is a stable sort, modelled by `List.mergeSort`. -/
def rankedMatches (uq : Str) (movies : List (Str × Rating)) : List (Str × Rating × ℚ) :=
  (similarMatches uq movies).mergeSort (fun x y => decide (x.2.2 ≤ y.2.2))

/-- The fuzzy branch of `search_movie` (`movie_project.py` lines 219–228):
report the ranked matches, or no match when the list is empty. -/
def fuzzyPipeline (uq : Str) (movies : List (Str × Rating)) : SearchResult :=
  if rankedMatches uq movies ≠ [] then .FuzzyMatches (rankedMatches uq movies)
  else .NoMatch

/-- Embedding of `search_movie(movies)` from `movie_project.py`
lines 197–228.  The interactive `input(...)` is the `input0` argument,
lowercased on entry (line 199); the printed outcome is modelled by the
returned `SearchResult` variant. -/
def search_movie (input0 : Str) (movies : List (Str × Rating)) : SearchResult :=
  let user_query := pyLower input0
  if exactResults user_query movies ≠ [] then
    .ExactMatches (exactResults user_query movies)
  else fuzzyPipeline user_query movies

/-- Rows of the SQL `movies` table used by `run.py`: title, year, rating. -/
structure RunRow where
  title : Str
  year : ℤ
  rating : Rating
deriving DecidableEq

/-- Result of `run.py`'s `search_movie()`: empty-query rejection, matching
rows, or no match. -/
inductive RunSearchResult where
  | invalidInput : RunSearchResult
  | found : List RunRow → RunSearchResult
  | noMatch : RunSearchResult
deriving DecidableEq

/-- Python `str.strip()`: drop whitespace from both ends. -/
def pyStrip (s : Str) : Str :=
  ((s.dropWhile Char.isWhitespace).reverse.dropWhile Char.isWhitespace).reverse

/-- SQLite `title LIKE '%query%'`: containment, case-insensitive on the
ASCII range. -/
def sqlLike (q t : Str) : Bool := decide (pyLower q <:+: pyLower t)

/-- Embedding of `search_movie()` from `run.py` lines 173–196: strip the
input, reject an empty query with an error message (modelled as
`invalidInput`), otherwise filter the table by `LIKE` containment and
report the rows or a no-match message. -/
def run_search_movie (input0 : Str) (catalog : List RunRow) : RunSearchResult :=
  let query := pyStrip input0
  if query = [] then .invalidInput
  else
    let rows := catalog.filter (fun r => sqlLike query r.title)
    if rows = [] then .noMatch else .found rows

theorem validMemo_nil : ValidMemo [] := by
  intro e he
  simp at he

theorem memoLookup_valid {memo : Memo} (h : ValidMemo memo) {p : Str × Str} {v : Nat}
    (hl : memoLookup memo p = some v) : v = levSpec p.1 p.2 := by
  induction memo with
  | nil => simp [memoLookup] at hl
  | cons e rest ih =>
    rw [memoLookup] at hl
    split at hl
    · rename_i hk
      have he := h e (by simp)
      cases hl
      subst hk
      exact he
    · exact ih (fun e' he' => h e' (by simp [he'])) hl

/-- Unfolding equations for `levSpec`. -/
theorem levSpec_nil_left (s2 : Str) : levSpec [] s2 = s2.length := by
  cases s2 <;> simp [levSpec]

theorem levSpec_nil_right (s1 : Str) : levSpec s1 [] = s1.length := by
  cases s1 <;> simp [levSpec]

theorem levSpec_cons (a b : Char) (t1 t2 : Str) :
    levSpec (a :: t1) (b :: t2) =
      if a = b then levSpec t1 t2
      else 1 + min (levSpec t1 (b :: t2)) (min (levSpec (a :: t1) t2) (levSpec t1 t2)) := by
  simp only [levSpec]

/-- Memoization is value-preserving: starting from any valid memo,
`calculate_distance` returns the spec distance and leaves the memo valid. -/
theorem calculate_distance_valid :
    ∀ (n : Nat) (s1 s2 : Str) (memo : Memo), s1.length + s2.length ≤ n → ValidMemo memo →
      (calculate_distance s1 s2 memo).1 = levSpec s1 s2 ∧
        ValidMemo (calculate_distance s1 s2 memo).2 := by
  intro n
  induction n with
  | zero =>
    intro s1 s2 memo hlen hv
    rw [calculate_distance.eq_def]
    split
    all_goals try exact ⟨memoLookup_valid hv (by assumption), hv⟩
    all_goals try exact ⟨(levSpec_nil_left _).symm, hv⟩
    all_goals try exact ⟨(levSpec_nil_right _).symm, hv⟩
    rename_i a t1 b t2 hnone
    simp [List.length_cons] at hlen
  | succ n ih =>
    intro s1 s2 memo hlen hv
    rw [calculate_distance.eq_def]
    split
    all_goals try exact ⟨memoLookup_valid hv (by assumption), hv⟩
    all_goals try exact ⟨(levSpec_nil_left _).symm, hv⟩
    all_goals try exact ⟨(levSpec_nil_right _).symm, hv⟩
    rename_i a t1 b t2 hnone
    simp only [List.length_cons] at hlen
    by_cases hab : a = b
    · simp only [if_pos hab]
      obtain ⟨hval, hvm⟩ := ih t1 t2 memo (by omega) hv
      refine ⟨?_, ?_⟩
      · rw [hval, levSpec_cons, if_pos hab]
      · intro e he
        rcases List.mem_cons.mp he with he | he
        · subst he
          simp [hval, levSpec_cons, if_pos hab]
        · exact hvm e he
    · simp only [if_neg hab]
      obtain ⟨hd, hdm⟩ := ih t1 (b :: t2) memo (by simp; omega) hv
      obtain ⟨hi, him⟩ := ih (a :: t1) t2 (calculate_distance t1 (b :: t2) memo).2
        (by simp; omega) hdm
      obtain ⟨hr, hrm⟩ := ih t1 t2
        (calculate_distance (a :: t1) t2 (calculate_distance t1 (b :: t2) memo).2).2
        (by omega) him
      have hval : 1 + min (calculate_distance t1 (b :: t2) memo).1
          (min (calculate_distance (a :: t1) t2 (calculate_distance t1 (b :: t2) memo).2).1
            (calculate_distance t1 t2
              (calculate_distance (a :: t1) t2
                (calculate_distance t1 (b :: t2) memo).2).2).1) =
          levSpec (a :: t1) (b :: t2) := by
        rw [hd, hi, hr, levSpec_cons, if_neg hab]
      refine ⟨hval, ?_⟩
      intro e he
      rcases List.mem_cons.mp he with he | he
      · subst he
        simpa using hval
      · exact hrm e he

/-- The memoized distance started on the empty memo agrees with the spec
recursion. -/
theorem calculate_distance_eq_levSpec (s1 s2 : Str) :
    (calculate_distance s1 s2 []).1 = levSpec s1 s2 :=
  (calculate_distance_valid (s1.length + s2.length) s1 s2 [] le_rfl validMemo_nil).1

/-- `levSpec` of a string with itself is zero. -/
theorem levSpec_self : ∀ s : Str, levSpec s s = 0
  | [] => by simp [levSpec_nil_left]
  | a :: t => by rw [levSpec_cons, if_pos rfl, levSpec_self t]

/-- The spec distance never exceeds the longer length. -/
theorem levSpec_le_max : ∀ s1 s2 : Str, levSpec s1 s2 ≤ max s1.length s2.length := by
  intro s1 s2
  induction s1, s2 using levSpec.induct with
  | case1 s2 => simp [levSpec_nil_left]
  | case2 s1 => simp [levSpec_nil_right]
  | case3 t1 b t2 ih =>
    rw [levSpec_cons, if_pos rfl]
    simp only [List.length_cons]
    omega
  | case4 a t1 b t2 hab ih1 ih2 ih3 =>
    rw [levSpec_cons, if_neg hab]
    simp only [List.length_cons] at *
    omega

/-- The spec distance is at least the length difference (stated without
truncated subtraction). -/
theorem levSpec_length_le : ∀ s1 s2 : Str, s1.length ≤ levSpec s1 s2 + s2.length := by
  intro s1 s2
  induction s1, s2 using levSpec.induct with
  | case1 s2 => simp [levSpec_nil_left]
  | case2 s1 => simp [levSpec_nil_right]
  | case3 t1 b t2 ih =>
    rw [levSpec_cons, if_pos rfl]
    simp only [List.length_cons]
    omega
  | case4 a t1 b t2 hab ih1 ih2 ih3 =>
    rw [levSpec_cons, if_neg hab]
    simp only [List.length_cons] at *
    omega

/-- The spec distance is symmetric in its arguments. -/
theorem levSpec_comm_aux :
    ∀ (n : Nat) (s1 s2 : Str), s1.length + s2.length ≤ n → levSpec s1 s2 = levSpec s2 s1 := by
  intro n
  induction n with
  | zero =>
    intro s1 s2 hlen
    have h1 : s1 = [] := by cases s1 <;> simp_all
    have h2 : s2 = [] := by cases s2 <;> simp_all
    subst h1; subst h2
    rfl
  | succ n ih =>
    intro s1 s2 hlen
    match s1, s2 with
    | [], s2 => rw [levSpec_nil_left, levSpec_nil_right]
    | s1, [] => rw [levSpec_nil_left, levSpec_nil_right]
    | a :: t1, b :: t2 =>
      simp only [List.length_cons] at hlen
      by_cases hab : a = b
      · rw [levSpec_cons, if_pos hab, levSpec_cons, if_pos (hab.symm),
          ih t1 t2 (by omega)]
      · rw [levSpec_cons, if_neg hab, levSpec_cons, if_neg (fun h => hab h.symm),
          ih t1 (b :: t2) (by simp [List.length_cons]; omega),
          ih (a :: t1) t2 (by simp [List.length_cons]; omega),
          ih t1 t2 (by omega)]
        omega

theorem levSpec_comm (s1 s2 : Str) : levSpec s1 s2 = levSpec s2 s1 :=
  levSpec_comm_aux (s1.length + s2.length) s1 s2 le_rfl

/-- Claim C2: for all strings, the memoized `calculate_distance` started
from an empty memo equals the reference Levenshtein recursion of the spec
(`len(b)` on empty `a`, `len(a)` on empty `b`, tail-recursion on equal
heads, else one plus the minimum of delete, insert and replace);
memoization changes only the cost, never the value. -/
theorem claim_C2_memoized_distance_matches_spec (a b : Str) :
    (calculate_distance a b []).1 = levSpec a b :=
  calculate_distance_eq_levSpec a b

/-- Claim C5: the computed distance is bounded above by the longer length
and below by the absolute length difference, and for non-empty inputs the
similarity score `1 - distance / max(len a, len b)` lies in `[0, 1]`. -/
theorem claim_C5_distance_bounds_score_range (a b : Str) :
    (calculate_distance a b []).1 ≤ max a.length b.length ∧
    ((a.length : ℤ) - (b.length : ℤ)).natAbs ≤ (calculate_distance a b []).1 ∧
    (a ≠ [] → b ≠ [] →
      0 ≤ 1 - normDist a b ∧ 1 - normDist a b ≤ 1) := by
  rw [calculate_distance_eq_levSpec]
  have hub := levSpec_le_max a b
  have hlb1 := levSpec_length_le a b
  have hlb2 := levSpec_length_le b a
  rw [levSpec_comm b a] at hlb2
  refine ⟨hub, by omega, ?_⟩
  intro ha hb
  have hmax : 0 < max a.length b.length := by
    cases a with
    | nil => exact absurd rfl ha
    | cons x xs => simp [Nat.lt_of_lt_of_le (Nat.succ_pos _) (le_max_left _ _)]
  have hmaxq : (0 : ℚ) < ((max a.length b.length : ℕ) : ℚ) := by
    exact_mod_cast hmax
  have hd0 : (0 : ℚ) ≤ ((calculate_distance a b []).1 : ℚ) := by positivity
  have hdm : ((calculate_distance a b []).1 : ℚ) ≤ ((max a.length b.length : ℕ) : ℚ) := by
    rw [calculate_distance_eq_levSpec]
    exact_mod_cast hub
  constructor
  · rw [normDist]
    have : ((calculate_distance a b []).1 : ℚ) / ((max a.length b.length : ℕ) : ℚ) ≤ 1 :=
      (div_le_one hmaxq).mpr hdm
    linarith
  · rw [normDist]
    have : 0 ≤ ((calculate_distance a b []).1 : ℚ) / ((max a.length b.length : ℕ) : ℚ) :=
      div_nonneg hd0 (le_of_lt hmaxq)
    linarith

/-- Witness for claim C5 at `a = "ab"`, `b = "b"`. -/
theorem claim_C5_witness :
    0 ≤ 1 - normDist ['a', 'b'] ['b'] ∧ 1 - normDist ['a', 'b'] ['b'] ≤ 1 :=
  (claim_C5_distance_bounds_score_range ['a', 'b'] ['b']).2.2 (by decide) (by decide)

/-- Claim C6: the edit distance computed by `calculate_distance` is
symmetric in its two (non-empty) string arguments. -/
theorem claim_C6_distance_symmetric (a b : Str) (ha : a ≠ []) (hb : b ≠ []) :
    (calculate_distance a b []).1 = (calculate_distance b a []).1 := by
  rw [calculate_distance_eq_levSpec, calculate_distance_eq_levSpec, levSpec_comm]

/-- Witness for claim C6 at `a = "ab"`, `b = "ba"`. -/
theorem claim_C6_witness :
    (calculate_distance ['a', 'b'] ['b', 'a'] []).1 =
      (calculate_distance ['b', 'a'] ['a', 'b'] []).1 :=
  claim_C6_distance_symmetric ['a', 'b'] ['b', 'a'] (by decide) (by decide)

/-- The `Counter`-style sum computed by `count_matches` is the size of the
character-frequency multiset intersection. -/
theorem multiset_inter_card (s1 s2 : Str) :
    Multiset.card ((↑s1 : Multiset Char) ∩ ↑s2) =
      (s1.dedup.map (fun c => min (s1.count c) (s2.count c))).sum := by
  classical
  have hdt : s1.dedup.toFinset = s1.toFinset := by
    ext a
    simp [List.mem_toFinset, List.mem_dedup]
  rw [← Multiset.toFinset_sum_count_eq ((↑s1 : Multiset Char) ∩ ↑s2)]
  rw [Finset.sum_subset
    (show ((↑s1 : Multiset Char) ∩ ↑s2).toFinset ⊆ s1.toFinset by
      intro a ha
      rw [Multiset.mem_toFinset, Multiset.mem_inter] at ha
      rw [List.mem_toFinset]
      exact_mod_cast ha.1)
    (by
      intro x _ hx
      rw [Multiset.mem_toFinset] at hx
      exact Multiset.count_eq_zero.mpr hx)]
  simp only [Multiset.count_inter, Multiset.coe_count]
  rw [← hdt, List.sum_toFinset _ s1.nodup_dedup]

/-- Claim C3: the pre-filter `count_matches(q, t)` accepts `t` exactly when
the size of the character-frequency multiset intersection of `q` and `t`
is at least `floor(0.7 * len(q))`. -/
theorem claim_C3_prefilter_iff_multiset_inter (q t : Str) :
    count_matches q t = true ↔
      ⌊(0.7 : ℚ) * (q.length : ℚ)⌋ ≤ (Multiset.card ((↑q : Multiset Char) ∩ ↑t) : ℤ) := by
  have h1 : (0.7 : ℚ) * (q.length : ℚ) = ((7 * q.length : ℕ) : ℚ) / ((10 : ℕ) : ℚ) := by
    rw [show (0.7 : ℚ) = 7 / 10 by norm_num]
    push_cast
    ring
  rw [h1, Rat.floor_natCast_div_natCast, multiset_inter_card]
  simp only [count_matches, ge_iff_le, decide_eq_true_eq]
  exact Nat.cast_le.symm

/-- Claim C10: the pre-filter is order-sensitive because its threshold is
computed from the first argument only — a one-character query passes
against any title, while the title `"xyz"` used as the query against the
one-character string fails, so `count_matches` is not symmetric. -/
theorem claim_C10_prefilter_order_sensitive :
    (∀ t : Str, count_matches ['a'] t = true) ∧
    count_matches ("xyz".toList) ['a'] = false ∧
    count_matches ['a'] ("xyz".toList) ≠ count_matches ("xyz".toList) ['a'] := by
  refine ⟨fun t => ?_, by decide, by decide⟩
  simp [count_matches]

/-- The spec distance of `"aaaaaaa"` and `"aaabbbb"` is 4. -/
theorem levSpec_prefilter_gap : levSpec ("aaaaaaa".toList) ("aaabbbb".toList) = 4 := by
  simp +decide [levSpec]

/-- The normalized distance of `"aaaaaaa"` and `"aaabbbb"` is `4/7`. -/
theorem normDist_prefilter_gap : normDist ("aaaaaaa".toList) ("aaabbbb".toList) = 4 / 7 := by
  have h1 : ("aaaaaaa".toList).length = 7 := by decide
  have h2 : ("aaabbbb".toList).length = 7 := by decide
  rw [normDist, calculate_distance_eq_levSpec, levSpec_prefilter_gap, h1, h2]
  norm_num

/-- Claim C9 counterexample: for the non-empty lowercased query
`"aaaaaaa"` and title `"aaabbbb"` the ranker accepts (normalized distance
`4/7 ≤ 0.7`) but the pre-filter rejects (3 common characters < 4 required),
refuting the superset-admission property. -/
theorem claim_C9_counterexample :
    normDist ("aaaaaaa".toList) ("aaabbbb".toList) ≤ 0.7 ∧
    count_matches ("aaaaaaa".toList) ("aaabbbb".toList) = false := by
  refine ⟨?_, by decide⟩
  rw [normDist_prefilter_gap]
  norm_num

/-- Claim C9 (amended): the pre-filter is not a superset admission test:
there are non-empty lowercased strings accepted by the ranker
(normalized distance at most 0.7) that the pre-filter rejects. -/
theorem claim_C9_amended_prefilter_not_superset :
    ∃ q t : Str, q ≠ [] ∧ t ≠ [] ∧ pyLower q = q ∧ pyLower t = t ∧
      normDist q t ≤ 0.7 ∧ count_matches q t = false := by
  refine ⟨"aaaaaaa".toList, "aaabbbb".toList, by decide, by decide, by decide, by decide,
    ?_, by decide⟩
  rw [normDist_prefilter_gap]
  norm_num

/-- The spec distance of `"inzeption"` and `"inception"` is 1 (a single
substitution `z → c`). -/
theorem levSpec_inzeption : levSpec ("inzeption".toList) ("inception".toList) = 1 := by
  simp +decide [levSpec]

/-- The sort comparator of the ranker is transitive. -/
theorem rankLe_trans (a b c : Str × Rating × ℚ)
    (hab : decide (a.2.2 ≤ b.2.2) = true) (hbc : decide (b.2.2 ≤ c.2.2) = true) :
    decide (a.2.2 ≤ c.2.2) = true := by
  simp only [decide_eq_true_eq] at *
  exact le_trans hab hbc

/-- The sort comparator of the ranker is total. -/
theorem rankLe_total (a b : Str × Rating × ℚ) :
    (decide (a.2.2 ≤ b.2.2) || decide (b.2.2 ≤ a.2.2)) = true := by
  simp only [Bool.or_eq_true, decide_eq_true_eq]
  exact le_total _ _

/-- Stability of the ranked sort: for every key value, the sub-list of
entries with that exact normalized distance is unchanged by sorting. -/
theorem mergeSort_filter_key (xs : List (Str × Rating × ℚ)) (d : ℚ) :
    (xs.mergeSort (fun x y => decide (x.2.2 ≤ y.2.2))).filter (fun e => decide (e.2.2 = d)) =
      xs.filter (fun e => decide (e.2.2 = d)) := by
  have hpw : (xs.filter (fun e => decide (e.2.2 = d))).Pairwise
      (fun a b => (fun x y : Str × Rating × ℚ => decide (x.2.2 ≤ y.2.2)) a b = true) := by
    apply List.pairwise_of_forall_mem_list
    intro a ha b hb
    have ha' := List.of_mem_filter ha
    have hb' := List.of_mem_filter hb
    simp only [decide_eq_true_eq] at ha' hb' ⊢
    rw [ha', hb']
  have hsub : List.Sublist (xs.filter (fun e => decide (e.2.2 = d)))
      (xs.mergeSort (fun x y => decide (x.2.2 ≤ y.2.2))) :=
    List.sublist_mergeSort rankLe_trans rankLe_total hpw (List.filter_sublist xs)
  have hidem : (xs.filter (fun e => decide (e.2.2 = d))).filter (fun e => decide (e.2.2 = d)) =
      xs.filter (fun e => decide (e.2.2 = d)) := by
    rw [List.filter_filter]
    apply List.filter_congr
    intro a _
    exact Bool.and_self _
  have hsub2 : List.Sublist (xs.filter (fun e => decide (e.2.2 = d)))
      ((xs.mergeSort (fun x y => decide (x.2.2 ≤ y.2.2))).filter (fun e => decide (e.2.2 = d))) := by
    have := hsub.filter (fun e => decide (e.2.2 = d))
    rwa [hidem] at this
  have hperm : List.Perm
      ((xs.mergeSort (fun x y => decide (x.2.2 ≤ y.2.2))).filter (fun e => decide (e.2.2 = d)))
      (xs.filter (fun e => decide (e.2.2 = d))) :=
    (List.mergeSort_perm xs _).filter _
  exact (hsub2.eq_of_length hperm.length_eq.symm).symm

/-- Every entry produced by the fuzzy scan has normalized distance at
most `0.7`. -/
theorem mem_similarMatches_bound {uq : Str} {movies : List (Str × Rating)}
    {e : Str × Rating × ℚ} (he : e ∈ similarMatches uq movies) : e.2.2 ≤ 0.7 := by
  rw [similarMatches, List.mem_filterMap] at he
  obtain ⟨m, _, hf⟩ := he
  split at hf
  · split at hf
    · rename_i hle
      cases hf
      exact hle
    · cases hf
  · cases hf

/-- Claim C1: if the lowercased query occurs as a substring of at least
one lowercased title, `search_movie` returns exactly those substring
matches as plain (title, rating) pairs and never runs the fuzzy pipeline;
the fuzzy pipeline runs exactly when the substring pass is empty. -/
theorem claim_C1_exact_short_circuit (input0 : Str) (movies : List (Str × Rating)) :
    ((∃ m ∈ movies, pyLower input0 <:+: pyLower m.1) →
      search_movie input0 movies =
        SearchResult.ExactMatches (exactResults (pyLower input0) movies)) ∧
    ((¬ ∃ m ∈ movies, pyLower input0 <:+: pyLower m.1) →
      search_movie input0 movies = fuzzyPipeline (pyLower input0) movies) := by
  have hiff : exactResults (pyLower input0) movies = [] ↔
      ¬ ∃ m ∈ movies, pyLower input0 <:+: pyLower m.1 := by
    rw [exactResults, List.filter_eq_nil_iff]
    simp
  constructor
  · intro h
    have hne : exactResults (pyLower input0) movies ≠ [] := fun hnil => (hiff.mp hnil) h
    simp [search_movie, hne]
  · intro h
    simp [search_movie, hiff.mpr h]

/-- Witness for claim C1: the query `"incep"` substring-matches the
catalog title `"Inception"`. -/
theorem claim_C1_witness :
    search_movie ("incep".toList) [("Inception".toList, (44 / 5 : ℚ))] =
      SearchResult.ExactMatches
        (exactResults (pyLower ("incep".toList)) [("Inception".toList, (44 / 5 : ℚ))]) :=
  (claim_C1_exact_short_circuit ("incep".toList) [("Inception".toList, (44 / 5 : ℚ))]).1
    (by decide)

/-- Claim C7 counterexample: the fuzzy-core `search_movie` of
`movie_project.py` does not reject the empty query — the empty string is a
substring of every title, so the whole catalog comes back as exact
matches and no invalid-input signal exists. -/
theorem claim_C7_counterexample :
    search_movie [] [("inception".toList, (0 : ℚ))] =
      SearchResult.ExactMatches [("inception".toList, (0 : ℚ))] := rfl

/-- Claim C7 (amended): the `movie_project.py` search treats the empty
query as a substring of every title and returns the whole (non-empty)
catalog as exact matches, with no error and no fuzzy pipeline; only the
`run.py` search rejects a blank query with an invalid-input signal before
searching. -/
theorem claim_C7_amended_empty_query :
    (∀ movies : List (Str × Rating), movies ≠ [] →
      search_movie [] movies = SearchResult.ExactMatches movies) ∧
    (∀ (input0 : Str) (catalog : List RunRow), pyStrip input0 = [] →
      run_search_movie input0 catalog = RunSearchResult.invalidInput) := by
  constructor
  · intro movies hm
    have hex : exactResults (pyLower []) movies = movies := by
      rw [exactResults]
      apply List.filter_eq_self.mpr
      intro a _
      exact decide_eq_true List.nil_infix
    rw [search_movie]
    simp only [pyLower, List.map_nil] at hex ⊢
    rw [hex]
    simp [hm]
  · intro input0 catalog h
    simp [run_search_movie, h]

/-- Witness for the amended claim C7. -/
theorem claim_C7_witness :
    search_movie [] [(['a'], (0 : ℚ))] = SearchResult.ExactMatches [(['a'], (0 : ℚ))] ∧
    run_search_movie [' '] [] = RunSearchResult.invalidInput :=
  ⟨claim_C7_amended_empty_query.1 [(['a'], (0 : ℚ))] (by decide),
    claim_C7_amended_empty_query.2 [' '] [] (by decide)⟩

/-- The full search on query `"inzeption"` over the catalog
`[("Inception", 8.8)]`: no substring hit, the pre-filter passes, the
distance is 1 over length 9, so one fuzzy match with normalized
distance `1/9`. -/
theorem search_inzeption :
    search_movie ("inzeption".toList) [("Inception".toList, (44 / 5 : ℚ))] =
      SearchResult.FuzzyMatches [("Inception".toList, (44 / 5 : ℚ), (1 / 9 : ℚ))] := by
  have hlow1 : pyLower ("inzeption".toList) = "inzeption".toList := by decide
  have hlow2 : pyLower ("Inception".toList) = "inception".toList := by decide
  have hex : exactResults ("inzeption".toList) [("Inception".toList, (44 / 5 : ℚ))] = [] := by
    decide
  have hdist : (calculate_distance ("inzeption".toList) ("inception".toList) []).1 = 1 := by
    rw [calculate_distance_eq_levSpec, levSpec_inzeption]
  have hnd : normDist ("inzeption".toList) ("inception".toList) = 1 / 9 := by
    have l1 : ("inzeption".toList).length = 9 := by decide
    have l2 : ("inception".toList).length = 9 := by decide
    rw [normDist, hdist, l1, l2]
    norm_num
  have hcm : count_matches ("inzeption".toList) ("inception".toList) = true := by decide
  have hsim : similarMatches ("inzeption".toList) [("Inception".toList, (44 / 5 : ℚ))] =
      [("Inception".toList, (44 / 5 : ℚ), (1 / 9 : ℚ))] := by
    rw [similarMatches]
    simp only [List.filterMap_cons, List.filterMap_nil, hlow2, hcm, hnd]
    norm_num
  have hrank : rankedMatches ("inzeption".toList) [("Inception".toList, (44 / 5 : ℚ))] =
      [("Inception".toList, (44 / 5 : ℚ), (1 / 9 : ℚ))] := by
    rw [rankedMatches, hsim, List.mergeSort_singleton]
  rw [search_movie]
  simp only [hlow1, hex, ne_eq, not_true_eq_false, if_false, reduceIte]
  rw [fuzzyPipeline, hrank]
  simp

/-- Claim C8 counterexample: the edit distance between `"inzeption"` and
(lowercased) `"Inception"` is 1 — a single substitution — not 2 as the
spec scenario states. -/
theorem claim_C8_counterexample :
    (calculate_distance (pyLower ("inzeption".toList)) (pyLower ("Inception".toList)) []).1
        = 1 ∧
    (calculate_distance (pyLower ("inzeption".toList)) (pyLower ("Inception".toList)) []).1
        ≠ 2 := by
  have hlow1 : pyLower ("inzeption".toList) = "inzeption".toList := by decide
  have hlow2 : pyLower ("Inception".toList) = "inception".toList := by decide
  rw [hlow1, hlow2, calculate_distance_eq_levSpec, levSpec_inzeption]
  exact ⟨rfl, by decide⟩

/-- Claim C8 (amended): for the catalog `[("Inception", 8.8)]` and query
`"inzeption"`, search returns the single fuzzy match `("Inception", 8.8)`
with edit distance 1 over length 9 (normalized distance `1/9`), giving a
similarity score of `8/9 ≈ 0.89`. -/
theorem claim_C8_amended_fuzzy_match :
    search_movie ("inzeption".toList) [("Inception".toList, (44 / 5 : ℚ))] =
      SearchResult.FuzzyMatches [("Inception".toList, (44 / 5 : ℚ), (1 / 9 : ℚ))] ∧
    (1 : ℚ) - 1 / 9 = 8 / 9 :=
  ⟨search_inzeption, by norm_num⟩

/-- Claim C4: whenever `search_movie` returns fuzzy results, the list is
sorted by ascending normalized distance, every entry's normalized distance
is at most `0.7`, and entries with equal normalized distance keep the
original catalog scan order (for each key value, filtering the output on
that key gives exactly the scan-order list filtered on that key). -/
theorem claim_C4_fuzzy_sorted_bounded_stable (input0 : Str) (movies : List (Str × Rating))
    (l : List (Str × Rating × ℚ))
    (h : search_movie input0 movies = SearchResult.FuzzyMatches l) :
    l.Pairwise (fun x y => x.2.2 ≤ y.2.2) ∧
    (∀ e ∈ l, e.2.2 ≤ 0.7) ∧
    (∀ d : ℚ, l.filter (fun e => decide (e.2.2 = d)) =
      (similarMatches (pyLower input0) movies).filter (fun e => decide (e.2.2 = d))) := by
  have hl : l = rankedMatches (pyLower input0) movies := by
    rw [search_movie] at h
    by_cases hex : exactResults (pyLower input0) movies = []
    · simp only [hex, ne_eq, not_true_eq_false, if_false, reduceIte, fuzzyPipeline] at h
      by_cases hr : rankedMatches (pyLower input0) movies = []
      · simp [hr] at h
      · simp only [hr, ne_eq, not_false_eq_true, if_true, reduceIte] at h
        exact (SearchResult.FuzzyMatches.injEq _ _ ▸ h).symm
    · simp [hex] at h
  subst hl
  refine ⟨?_, ?_, ?_⟩
  · have hs := List.sorted_mergeSort rankLe_trans rankLe_total
      (similarMatches (pyLower input0) movies)
    rw [rankedMatches]
    exact hs.imp (fun hab => by simpa using hab)
  · intro e he
    rw [rankedMatches, List.mem_mergeSort] at he
    exact mem_similarMatches_bound he
  · intro d
    rw [rankedMatches]
    exact mergeSort_filter_key _ d

/-- Witness for claim C4 on the `"inzeption"` search. -/
theorem claim_C4_witness :
    List.Pairwise (fun x y : Str × Rating × ℚ => x.2.2 ≤ y.2.2)
      [("Inception".toList, (44 / 5 : ℚ), (1 / 9 : ℚ))] :=
  (claim_C4_fuzzy_sorted_bounded_stable ("inzeption".toList)
    [("Inception".toList, (44 / 5 : ℚ))] _ search_inzeption).1

end MovieDb
